import Mathlib

/-!
Shallow embedding of `arena.h`, a growing memory arena allocator.

Machine integers (`size_t`, `uintptr_t`) are modelled as `Nat` with explicit
reduction modulo `2 ^ 64` wherever the C arithmetic can wrap.  Pointers are
modelled as plain addresses (`Nat`).  The backing allocator (`mem_alloc`) is
modelled as an oracle `Nat → Option Nat` consulted at an increasing call
counter; `none` models a `NULL` return, `some a` a buffer at address `a`.
The singly linked block chain is modelled as a `List` with the head block
first.  C functions that dereference a possibly-null pointer return `Option`
results, with `none` marking the undefined null dereference.
-/

/-- Width of `size_t` / `uintptr_t`: the arithmetic modulus `2 ^ 64`. -/
def U64 : Nat := 2 ^ 64

/-- C `align_forward_ptr(p, a)`: round `p` up to the next multiple of `a`
(`uintptr_t` addition wraps modulo `2 ^ 64`). -/
def align_forward_ptr (p a : Nat) : Nat :=
  if p % a > 0 then (p + (a - p % a)) % U64 else p

/-- C `align_forward_size(p, a)`: identical to `align_forward_ptr` but on
`size_t`. -/
def align_forward_size (p a : Nat) : Nat :=
  if p % a > 0 then (p + (a - p % a)) % U64 else p

/-- C `struct ArenaBlock`; the `next` pointers become the list structure of
the chain. -/
structure ArenaBlock where
  data : Nat
  offset : Nat
  capacity : Nat
deriving Repr, DecidableEq

/-- C `arena_block_get_required(cur, nbytes, alignment)`: padding to the
alignment boundary plus the request, in wrapping `uintptr_t` arithmetic. -/
def arena_block_get_required (cur nbytes alignment : Nat) : Nat :=
  let aligned := align_forward_ptr cur alignment
  let padding := (aligned + U64 - cur) % U64
  (padding + nbytes) % U64

/-- C `arena_block_alloc_raw(blk, nbytes, alignment)`: bump-allocate from one
block; `none` models a `NULL` return.  On success returns the address
`&blk->data[blk->offset - nbytes]` and the block with its advanced offset. -/
def arena_block_alloc_raw (blk : ArenaBlock) (nbytes alignment : Nat) :
    Option (Nat × ArenaBlock) :=
  let base := blk.data
  let cur := (base + blk.offset) % U64
  let available := (blk.capacity + U64 - (cur + U64 - base) % U64) % U64
  let required := arena_block_get_required cur nbytes alignment
  if required > available then none
  else
    let offset' := (blk.offset + required) % U64
    some ((base + (offset' + U64 - nbytes) % U64) % U64,
          { blk with offset := offset' })

/-- The `while (blk != NULL)` loop of C `arena_alloc_raw`: first-fit search
along the chain; on success only the chosen block is replaced. -/
def chain_alloc : List ArenaBlock → Nat → Nat → Option (Nat × List ArenaBlock)
  | [], _, _ => none
  | blk :: rest, nbytes, alignment =>
    match arena_block_alloc_raw blk nbytes alignment with
    | some (p, blk') => some (p, blk' :: rest)
    | none =>
      match chain_alloc rest nbytes alignment with
      | some (p, rest') => some (p, blk :: rest')
      | none => none

/-- The backing `mem_alloc` procedure, as an oracle giving the result of its
`i`-th invocation (`none` models a `NULL` return). -/
structure MemAlloc where
  f : Nat → Option Nat

/-- C `struct ArenaAllocator`: the block chain (head block first) plus the
number of `mem_alloc` calls made so far (the oracle position).  `blocks = []`
models `head == NULL`. -/
structure ArenaAllocator where
  blocks : List ArenaBlock
  ctr : Nat
deriving Repr, DecidableEq

/-- C `arena_block_create(ar, capacity)`: one `mem_alloc` for the block
record (its address is irrelevant, only success matters) and, if that
succeeded, one for the data buffer.  Returns the new block (or `none`) and
the advanced oracle position. -/
def arena_block_create (m : MemAlloc) (ar : ArenaAllocator) (capacity : Nat) :
    Option ArenaBlock × Nat :=
  match m.f ar.ctr with
  | none => (none, ar.ctr + 1)
  | some _ =>
    match m.f (ar.ctr + 1) with
    | none => (none, ar.ctr + 2)
    | some dataAddr =>
      (some { data := dataAddr, offset := 0, capacity := capacity }, ar.ctr + 2)

/-- C `arena_create(alloc_proc, free_proc, capacity)`: reserves a single
block; on failure `head` is the null chain `[]`. -/
def arena_create (m : MemAlloc) (capacity : Nat) : ArenaAllocator :=
  let ar0 : ArenaAllocator := { blocks := [], ctr := 0 }
  match arena_block_create m ar0 capacity with
  | (none, c) => { blocks := [], ctr := c }
  | (some blk, c) => { blocks := [blk], ctr := c }

/-- C `arena_push_block(ar, capacity)`: link a newly created block as the
new head; `false` on failure. -/
def arena_push_block (m : MemAlloc) (ar : ArenaAllocator) (capacity : Nat) :
    Bool × ArenaAllocator :=
  match arena_block_create m ar capacity with
  | (none, c) => (false, { ar with ctr := c })
  | (some blk, c) => (true, { ar with blocks := blk :: ar.blocks, ctr := c })

/-- The numerator of the binary64 constant `ARENA_GROW_FACTOR = 1.15`, which
is exactly `5179139571476070 / 2 ^ 52`. -/
def growFactorNum : Nat := 5179139571476070

/-- Models the C expression `(size_t)(new_cap * ARENA_GROW_FACTOR)`: the
truncated product of `n` with the binary64 value of `1.15`
(`5179139571476070 / 2 ^ 52`).  We truncate the exact rational product,
eliding the intermediate round-to-nearest of the binary64 multiplication;
the two computations agree on every concrete capacity appearing in this
development. -/
def growMul (n : Nat) : Nat := n * growFactorNum / 2 ^ 52

/-- C `arena_alloc_raw(ar, nbytes, alignment)`.  The C function recurses
into itself after growing, with no bound; `fuel` bounds that recursion depth
(`fuel = 0` standing for a still-running computation). -/
def arena_alloc_raw (m : MemAlloc) :
    Nat → ArenaAllocator → Nat → Nat → Option Nat × ArenaAllocator
  | 0, ar, _, _ => (none, ar)
  | fuel + 1, ar, nbytes, alignment =>
    if nbytes = 0 then (none, ar)
    else
      match chain_alloc ar.blocks nbytes alignment with
      | some (p, blocks') => (some p, { ar with blocks := blocks' })
      | none =>
        let new_cap := align_forward_size nbytes alignment
        match arena_push_block m ar (growMul new_cap) with
        | (true, ar') => arena_alloc_raw m fuel ar' nbytes alignment
        | (false, ar') => (none, ar')

/-- C `arena_reset(ar)`: zero every offset walking the chain.  With
`head == NULL` the loop condition `cur->next` dereferences a null pointer;
`none` models that undefined execution. -/
def arena_reset : List ArenaBlock → Option (List ArenaBlock)
  | [] => none
  | [b] => some [{ b with offset := 0 }]
  | b :: rest =>
    match arena_reset rest with
    | some rest' => some ({ b with offset := 0 } :: rest')
    | none => none

/-- C `arena_destroy(ar)`: free every block and set `head = NULL`.  With
`head == NULL` the loop condition `cur->next` dereferences a null pointer;
`none` models that undefined execution. -/
def arena_destroy : List ArenaBlock → Option (List ArenaBlock)
  | [] => none
  | _ :: _ => some []

/-- C `arena_block_count(ar)`: walk the chain counting blocks (`size_t`
increments wrap modulo `2 ^ 64`). -/
def arena_block_count : List ArenaBlock → Nat
  | [] => 0
  | _ :: rest => (arena_block_count rest + 1) % U64

/-- C `arena_total_capacity(ar)`: walk the chain summing capacities
(`size_t` additions wrap modulo `2 ^ 64`). -/
def arena_total_capacity : List ArenaBlock → Nat
  | [] => 0
  | b :: rest => (arena_total_capacity rest + b.capacity) % U64

/-! ## Specification-side notions

The definitions below are not translations of C code; they are the
vocabulary in which the verified properties are stated: well-formedness of
a machine state, disjointness of address ranges, and the freshness contract
of the backing allocator. -/

/-- The alignment padding `align_forward_ptr (cur) - cur` in the
non-wrapping regime. -/
def padOf (cur a : Nat) : Nat :=
  if cur % a > 0 then a - cur % a else 0

/-- A block is well formed when its cursor is inside its buffer and the
buffer lies inside the address space. -/
def WFBlock (b : ArenaBlock) : Prop :=
  b.offset ≤ b.capacity ∧ b.data + b.capacity < U64

/-- Two blocks own non-overlapping buffers. -/
def BlocksDisjoint (b c : ArenaBlock) : Prop :=
  b.data + b.capacity ≤ c.data ∨ c.data + c.capacity ≤ b.data

/-- A well-formed chain: every block well formed, buffers pairwise
disjoint. -/
def WFChain (bs : List ArenaBlock) : Prop :=
  (∀ b ∈ bs, WFBlock b) ∧ List.Pairwise BlocksDisjoint bs

/-- The byte ranges `[p₁, p₁ + n₁)` and `[p₂, p₂ + n₂)` do not overlap. -/
def RegionsDisjoint (p₁ n₁ p₂ n₂ : Nat) : Prop :=
  p₁ + n₁ ≤ p₂ ∨ p₂ + n₂ ≤ p₁

/-- The range `[p, p + n)` lies inside the already-handed-out prefix of some
block of the chain. -/
def InPrefix (bs : List ArenaBlock) (p n : Nat) : Prop :=
  ∃ b ∈ bs, b.data ≤ p ∧ p + n ≤ b.data + b.offset

/-- Freshness contract of the backing allocator, from oracle position `ctr`
on, for buffers of size at most `CB`: every address it may still return
fits in the address space with `CB` room, is disjoint from every existing
buffer, and distinct future returns are at least `CB` apart. -/
def OracleFresh (m : MemAlloc) (ctr : Nat) (bs : List ArenaBlock) (CB : Nat) : Prop :=
  ∀ i b, ctr ≤ i → m.f i = some b →
    b + CB < U64 ∧
    (∀ blk ∈ bs, blk.data + blk.capacity ≤ b ∨ b + CB ≤ blk.data) ∧
    (∀ j c, ctr ≤ j → i ≠ j → m.f j = some c → b + CB ≤ c ∨ c + CB ≤ b)

/-- Conditions on one `arena_alloc_raw` call `(nbytes, alignment, result)`:
a positive request, a positive alignment, no overflow of the padded size,
and a grown-block capacity within the freshness bound `CB`. -/
def CallOK (CB : Nat) (c : Nat × Nat × Option Nat) : Prop :=
  1 ≤ c.1 ∧ 1 ≤ c.2.1 ∧ c.1 + c.2.1 ≤ U64 ∧
    growMul (align_forward_size c.1 c.2.1) ≤ CB

/-- A sequence of `arena_alloc_raw` calls on one arena, recording for each
call the request size, the alignment and the returned address (if any). -/
inductive ArenaRun (m : MemAlloc) :
    ArenaAllocator → List (Nat × Nat × Option Nat) → ArenaAllocator → Prop
  | nil (ar : ArenaAllocator) : ArenaRun m ar [] ar
  | step (fuel : Nat) (ar : ArenaAllocator) (n a : Nat) (res : Option Nat)
      (ar' : ArenaAllocator) (calls : List (Nat × Nat × Option Nat))
      (ar'' : ArenaAllocator) :
      arena_alloc_raw m fuel ar n a = (res, ar') →
      ArenaRun m ar' calls ar'' →
      ArenaRun m ar ((n, a, res) :: calls) ar''

instance (b : ArenaBlock) : Decidable (WFBlock b) := by
  unfold WFBlock
  infer_instance

instance (b c : ArenaBlock) : Decidable (BlocksDisjoint b c) := by
  unfold BlocksDisjoint
  infer_instance

instance (bs : List ArenaBlock) : Decidable (WFChain bs) := by
  unfold WFChain
  infer_instance

instance (p₁ n₁ p₂ n₂ : Nat) : Decidable (RegionsDisjoint p₁ n₁ p₂ n₂) := by
  unfold RegionsDisjoint
  infer_instance

instance (bs : List ArenaBlock) (p n : Nat) : Decidable (InPrefix bs p n) := by
  unfold InPrefix
  infer_instance

instance (CB : Nat) (c : Nat × Nat × Option Nat) : Decidable (CallOK CB c) := by
  unfold CallOK
  infer_instance

/-! ## One-block lemmas -/

theorem padOf_lt (cur a : Nat) (ha : 1 ≤ a) : padOf cur a < a := by
  unfold padOf
  split
  · have := Nat.mod_lt cur (show 0 < a from ha)
    omega
  · omega

/-- In the non-overflow regime, `arena_block_alloc_raw` is the plain bump
allocator: it succeeds exactly when padding plus request fits in the free
space, returning the aligned cursor and advancing the offset by padding
plus request. -/
theorem arena_block_alloc_raw_eq (blk : ArenaBlock) (n a : Nat)
    (hwf : WFBlock blk) (ha : 1 ≤ a) (hn : 1 ≤ n) (hna : n + a ≤ U64) :
    arena_block_alloc_raw blk n a =
      if padOf (blk.data + blk.offset) a + n ≤ blk.capacity - blk.offset then
        some (blk.data + blk.offset + padOf (blk.data + blk.offset) a,
              { blk with
                offset := blk.offset + padOf (blk.data + blk.offset) a + n })
      else none := by
  obtain ⟨h1, h2⟩ := hwf
  obtain ⟨d, o, cap⟩ := blk
  simp only at h1 h2 ⊢
  have hpa : padOf (d + o) a < a := padOf_lt (d + o) a ha
  simp only [arena_block_alloc_raw, arena_block_get_required, align_forward_ptr]
  have hdo : d + o < U64 := by omega
  rw [Nat.mod_eq_of_lt hdo]
  have e1 : d + o + U64 - d = o + U64 := by omega
  rw [e1, Nat.add_mod_right, Nat.mod_eq_of_lt (show o < U64 by omega)]
  have e2 : cap + U64 - o = (cap - o) + U64 := by omega
  rw [e2, Nat.add_mod_right, Nat.mod_eq_of_lt (show cap - o < U64 by omega)]
  by_cases hc : (d + o) % a > 0
  · -- misaligned cursor: nonzero padding
    rw [if_pos hc]
    set P := a - (d + o) % a with hP
    have hPa : 1 ≤ P ∧ P < a := by
      have := Nat.mod_lt (d + o) (show 0 < a from ha)
      omega
    have hpadOf : padOf (d + o) a = P := by
      unfold padOf
      rw [if_pos hc]
    have hpad : ((d + o + P) % U64 + U64 - (d + o)) % U64 = P := by
      rcases Nat.lt_or_ge (d + o + P) U64 with hs | hs
      · rw [Nat.mod_eq_of_lt hs]
        have e : d + o + P + U64 - (d + o) = P + U64 := by omega
        rw [e, Nat.add_mod_right, Nat.mod_eq_of_lt (by omega)]
      · have hs2 : d + o + P < 2 * U64 := by omega
        have e0 : (d + o + P) % U64 = d + o + P - U64 := by
          rw [Nat.mod_eq_sub_mod hs, Nat.mod_eq_of_lt (by omega)]
        rw [e0]
        have e : d + o + P - U64 + U64 - (d + o) = P := by omega
        rw [e, Nat.mod_eq_of_lt (by omega)]
    rw [hpad, hpadOf]
    have hreq : (P + n) % U64 = P + n := Nat.mod_eq_of_lt (by omega)
    rw [hreq]
    rcases Nat.lt_or_ge (cap - o) (P + n) with hfit | hfit
    · rw [if_pos (show P + n > cap - o by omega),
        if_neg (show ¬(P + n ≤ cap - o) by omega)]
    · rw [if_neg (show ¬(P + n > cap - o) by omega),
        if_pos (show P + n ≤ cap - o from hfit)]
      have hoff : (o + (P + n)) % U64 = o + P + n := by
        rw [Nat.mod_eq_of_lt (by omega)]
        omega
      rw [hoff]
      have e3 : o + P + n + U64 - n = (o + P) + U64 := by omega
      rw [e3, Nat.add_mod_right, Nat.mod_eq_of_lt (show o + P < U64 by omega),
        Nat.mod_eq_of_lt (show d + (o + P) < U64 by omega)]
      simp only [Option.some.injEq, Prod.mk.injEq, ArenaBlock.mk.injEq,
        and_true, true_and]
      omega
  · -- aligned cursor: zero padding
    rw [if_neg hc]
    have hpadOf : padOf (d + o) a = 0 := by
      unfold padOf
      rw [if_neg hc]
    rw [hpadOf]
    have e : d + o + U64 - (d + o) = U64 := by omega
    rw [e, Nat.mod_self, Nat.zero_add, Nat.mod_eq_of_lt (show n < U64 by omega)]
    rcases Nat.lt_or_ge (cap - o) n with hfit | hfit
    · rw [if_pos (show n > cap - o by omega),
        if_neg (show ¬(n ≤ cap - o) by omega)]
    · rw [if_neg (show ¬(n > cap - o) by omega),
        if_pos (show n ≤ cap - o from hfit)]
      have hoff : (o + n) % U64 = o + n := Nat.mod_eq_of_lt (by omega)
      rw [hoff]
      have e3 : o + n + U64 - n = o + U64 := by omega
      rw [e3, Nat.add_mod_right, Nat.mod_eq_of_lt (show o < U64 by omega),
        Nat.mod_eq_of_lt (show d + o < U64 by omega)]
      simp only [Option.some.injEq, Prod.mk.injEq, ArenaBlock.mk.injEq,
        and_true, true_and]
      omega

/-- Components of a successful block allocation in the non-overflow
regime: footprint unchanged, cursor advanced, returned range inside the
newly consumed span. -/
theorem arena_block_alloc_raw_some (blk : ArenaBlock) (n a p : Nat)
    (blk' : ArenaBlock) (hwf : WFBlock blk) (ha : 1 ≤ a) (hn : 1 ≤ n)
    (hna : n + a ≤ U64)
    (h : arena_block_alloc_raw blk n a = some (p, blk')) :
    blk'.data = blk.data ∧ blk'.capacity = blk.capacity ∧
      blk.offset ≤ blk'.offset ∧ blk'.offset ≤ blk.capacity ∧
      blk.data + blk.offset ≤ p ∧ p + n = blk.data + blk'.offset := by
  obtain ⟨h1, h2⟩ := hwf
  rw [arena_block_alloc_raw_eq blk n a ⟨h1, h2⟩ ha hn hna] at h
  split at h
  case isTrue hc =>
    simp only [Option.some.injEq, Prod.mk.injEq] at h
    obtain ⟨hp, hb⟩ := h
    subst hb
    subst hp
    simp only [true_and]
    omega
  case isFalse hc => exact absurd h (by simp)

/-- A successful chain search decomposes the chain into failing blocks `L`,
the first fitting block `b` (replaced by `b'`) and the untouched tail. -/
theorem chain_alloc_some (bs : List ArenaBlock) (n a p : Nat)
    (bs' : List ArenaBlock) (h : chain_alloc bs n a = some (p, bs')) :
    ∃ L b b' R, bs = L ++ b :: R ∧ bs' = L ++ b' :: R ∧
      (∀ x ∈ L, arena_block_alloc_raw x n a = none) ∧
      arena_block_alloc_raw b n a = some (p, b') := by
  induction bs generalizing bs' with
  | nil => simp [chain_alloc] at h
  | cons blk rest ih =>
    rw [chain_alloc] at h
    cases hb : arena_block_alloc_raw blk n a with
    | some pb =>
      obtain ⟨p₀, b₀⟩ := pb
      rw [hb] at h
      simp only [Option.some.injEq, Prod.mk.injEq] at h
      obtain ⟨hp, hbs⟩ := h
      subst hp
      subst hbs
      exact ⟨[], blk, b₀, rest, rfl, rfl, by simp, hb⟩
    | none =>
      rw [hb] at h
      cases hc : chain_alloc rest n a with
      | some pr =>
        obtain ⟨p₀, rest'⟩ := pr
        rw [hc] at h
        simp only [Option.some.injEq, Prod.mk.injEq] at h
        obtain ⟨hp, hbs⟩ := h
        subst hp
        subst hbs
        obtain ⟨L, b, b', R, hbs, hbs', hL, hsucc⟩ := ih rest' hc
        refine ⟨blk :: L, b, b', R, by simp [hbs], by simp [hbs'], ?_, hsucc⟩
        intro x hx
        rcases List.mem_cons.mp hx with hx | hx
        · exact hx ▸ hb
        · exact hL x hx
      | none => rw [hc] at h; exact absurd h (by simp)

/-- First-fit completeness: if every block before `b` rejects the request
and `b` accepts it, the chain search commits to `b`. -/
theorem chain_alloc_first_fit (L : List ArenaBlock) (b b' : ArenaBlock)
    (R : List ArenaBlock) (n a p : Nat)
    (hL : ∀ x ∈ L, arena_block_alloc_raw x n a = none)
    (hb : arena_block_alloc_raw b n a = some (p, b')) :
    chain_alloc (L ++ b :: R) n a = some (p, L ++ b' :: R) := by
  induction L with
  | nil => simp [chain_alloc, hb]
  | cons x xs ih =>
    have hx : arena_block_alloc_raw x n a = none := hL x (List.mem_cons_self x xs)
    have ih' := ih fun y hy => hL y (List.mem_cons_of_mem x hy)
    simp [chain_alloc, hx, ih']

/-- A failed chain search rejects at every block. -/
theorem chain_alloc_none (bs : List ArenaBlock) (n a : Nat)
    (h : chain_alloc bs n a = none) :
    ∀ x ∈ bs, arena_block_alloc_raw x n a = none := by
  induction bs with
  | nil => simp
  | cons blk rest ih =>
    rw [chain_alloc] at h
    intro x hx
    cases hb : arena_block_alloc_raw blk n a with
    | some pb => rw [hb] at h; exact absurd h (by simp)
    | none =>
      rw [hb] at h
      rcases List.mem_cons.mp hx with hx | hx
      · exact hx ▸ hb
      · cases hc : chain_alloc rest n a with
        | some pr => rw [hc] at h; exact absurd h (by simp)
        | none => exact ih hc x hx

/-- A successful `arena_push_block` consumed two oracle entries and linked
a zero-offset block with the second entry as buffer at the head. -/
theorem arena_push_block_true (m : MemAlloc) (ar : ArenaAllocator) (cap : Nat)
    (ar₁ : ArenaAllocator) (h : arena_push_block m ar cap = (true, ar₁)) :
    ∃ r d, m.f ar.ctr = some r ∧ m.f (ar.ctr + 1) = some d ∧
      ar₁ = { blocks := { data := d, offset := 0, capacity := cap } :: ar.blocks,
              ctr := ar.ctr + 2 } := by
  unfold arena_push_block arena_block_create at h
  cases h0 : m.f ar.ctr with
  | none => rw [h0] at h; exact absurd h (by simp)
  | some r =>
    rw [h0] at h
    cases h1 : m.f (ar.ctr + 1) with
    | none => rw [h1] at h; exact absurd h (by simp)
    | some d₀ =>
      rw [h1] at h
      simp only [Prod.mk.injEq, true_and] at h
      exact ⟨r, d₀, rfl, rfl, h.symm⟩

/-- A failed `arena_push_block` leaves the chain untouched and only
advances the oracle position. -/
theorem arena_push_block_false (m : MemAlloc) (ar : ArenaAllocator) (cap : Nat)
    (ar₁ : ArenaAllocator) (h : arena_push_block m ar cap = (false, ar₁)) :
    ar₁.blocks = ar.blocks ∧ ar.ctr ≤ ar₁.ctr := by
  unfold arena_push_block arena_block_create at h
  cases h0 : m.f ar.ctr with
  | none =>
    rw [h0] at h
    simp only [Prod.mk.injEq, true_and] at h
    subst h
    exact ⟨rfl, Nat.le_succ _⟩
  | some r =>
    rw [h0] at h
    cases h1 : m.f (ar.ctr + 1) with
    | none =>
      rw [h1] at h
      simp only [Prod.mk.injEq, true_and] at h
      subst h
      exact ⟨rfl, Nat.le_add_right _ 2⟩
    | some d₀ =>
      rw [h1] at h
      exact absurd h (by simp)

/-! ## Chain invariant preservation -/

theorem blocksDisjoint_congr_right (x b b' : ArenaBlock)
    (hd : b'.data = b.data) (hc : b'.capacity = b.capacity) :
    BlocksDisjoint x b' ↔ BlocksDisjoint x b := by
  unfold BlocksDisjoint
  rw [hd, hc]

theorem blocksDisjoint_congr_left (x b b' : ArenaBlock)
    (hd : b'.data = b.data) (hc : b'.capacity = b.capacity) :
    BlocksDisjoint b' x ↔ BlocksDisjoint b x := by
  unfold BlocksDisjoint
  rw [hd, hc]

/-- Committing an allocation to the block `b` (same buffer, larger offset)
preserves chain well-formedness. -/
theorem wf_chain_commit (L R : List ArenaBlock) (b b' : ArenaBlock)
    (hwf : WFChain (L ++ b :: R)) (hd : b'.data = b.data)
    (hcap : b'.capacity = b.capacity) (ho : b'.offset ≤ b'.capacity) :
    WFChain (L ++ b' :: R) := by
  obtain ⟨hAll, hPW⟩ := hwf
  constructor
  · intro x hx
    rcases List.mem_append.mp hx with hx | hx
    · exact hAll x (List.mem_append.mpr (Or.inl hx))
    · rcases List.mem_cons.mp hx with hx | hx
      · subst hx
        have hb : WFBlock b := hAll b (List.mem_append.mpr
          (Or.inr (List.mem_cons_self b R)))
        exact ⟨ho, by rw [hd, hcap]; exact hb.2⟩
      · exact hAll x (List.mem_append.mpr (Or.inr (List.mem_cons_of_mem b hx)))
  · rw [List.pairwise_append] at hPW ⊢
    obtain ⟨h1, h2, h3⟩ := hPW
    rw [List.pairwise_cons] at h2 ⊢
    refine ⟨h1, ⟨?_, h2.2⟩, ?_⟩
    · intro y hy
      exact (blocksDisjoint_congr_left y b b' hd hcap).mpr (h2.1 y hy)
    · intro x hx y hy
      rcases List.mem_cons.mp hy with hy | hy
      · subst hy
        exact (blocksDisjoint_congr_right x b y hd hcap).mpr
          (h3 x hx b (List.mem_cons_self b R))
      · exact h3 x hx y (List.mem_cons_of_mem b hy)

/-- Oracle freshness only looks at block footprints. -/
theorem oracleFresh_congr (m : MemAlloc) (ctr CB : Nat)
    (bs bs' : List ArenaBlock) (h : OracleFresh m ctr bs CB)
    (hmap : ∀ x ∈ bs', ∃ y ∈ bs, x.data = y.data ∧ x.capacity = y.capacity) :
    OracleFresh m ctr bs' CB := by
  intro i b hi hb
  obtain ⟨hU, hblocks, hpair⟩ := h i b hi hb
  refine ⟨hU, ?_, hpair⟩
  intro blk hblk
  obtain ⟨y, hy, hdd, hcc⟩ := hmap blk hblk
  rw [hdd, hcc]
  exact hblocks y hy

/-- Oracle freshness survives advancing the call counter. -/
theorem oracleFresh_mono (m : MemAlloc) (ctr ctr' CB : Nat)
    (bs : List ArenaBlock) (hle : ctr ≤ ctr') (h : OracleFresh m ctr bs CB) :
    OracleFresh m ctr' bs CB := by
  intro i b hi hb
  obtain ⟨hU, hblocks, hpair⟩ := h i b (le_trans hle hi) hb
  exact ⟨hU, hblocks, fun j c hj hij hc => hpair j c (le_trans hle hj) hij hc⟩

/-- Pushing a freshly reserved block preserves chain well-formedness and
oracle freshness. -/
theorem oracleFresh_push (m : MemAlloc) (ctr CB cap : Nat)
    (bs : List ArenaBlock) (d r : Nat)
    (h : OracleFresh m ctr bs CB) (_h0 : m.f ctr = some r)
    (h1 : m.f (ctr + 1) = some d) (hcap : cap ≤ CB) (hwf : WFChain bs) :
    WFChain ({ data := d, offset := 0, capacity := cap } :: bs) ∧
      OracleFresh m (ctr + 2)
        ({ data := d, offset := 0, capacity := cap } :: bs) CB := by
  obtain ⟨hU, hblocks, _⟩ := h (ctr + 1) d (by omega) h1
  constructor
  · obtain ⟨hAll, hPW⟩ := hwf
    refine ⟨?_, ?_⟩
    · intro x hx
      rcases List.mem_cons.mp hx with hx | hx
      · subst hx
        exact ⟨Nat.zero_le _, by simp only; omega⟩
      · exact hAll x hx
    · rw [List.pairwise_cons]
      refine ⟨?_, hPW⟩
      intro y hy
      rcases hblocks y hy with hcase | hcase
      · exact Or.inr hcase
      · exact Or.inl (by simp only; omega)
  · intro i b hi hb
    obtain ⟨hU', hblocks', hpair'⟩ := h i b (by omega) hb
    refine ⟨hU', ?_, fun j c hj hij hc => hpair' j c (by omega) hij hc⟩
    intro blk hblk
    rcases List.mem_cons.mp hblk with hblk | hblk
    · subst hblk
      rcases hpair' (ctr + 1) d (by omega) (by omega) h1 with hcase | hcase
      · exact Or.inr hcase
      · exact Or.inl (by simp only; omega)
    · exact hblocks' blk hblk

/-- Main invariant-preservation lemma for one `arena_alloc_raw` call: under
chain well-formedness and oracle freshness, a call preserves both, only
extends the handed-out prefixes, and a returned region lies in the new
prefix and is disjoint from every previously handed-out range. -/
theorem arena_alloc_raw_spec (m : MemAlloc) (CB n a : Nat)
    (hn : 1 ≤ n) (ha : 1 ≤ a) (hna : n + a ≤ U64)
    (hC : growMul (align_forward_size n a) ≤ CB) :
    ∀ (fuel : Nat) (ar : ArenaAllocator) (res : Option Nat)
      (ar' : ArenaAllocator),
      arena_alloc_raw m fuel ar n a = (res, ar') →
      WFChain ar.blocks → OracleFresh m ar.ctr ar.blocks CB →
      WFChain ar'.blocks ∧ ar.ctr ≤ ar'.ctr ∧
        OracleFresh m ar'.ctr ar'.blocks CB ∧
        (∀ q k, InPrefix ar.blocks q k → InPrefix ar'.blocks q k) ∧
        (∀ p, res = some p → InPrefix ar'.blocks p n ∧
          ∀ q k, InPrefix ar.blocks q k → RegionsDisjoint q k p n) := by
  intro fuel
  induction fuel with
  | zero =>
    intro ar res ar' h hwf hf
    simp only [arena_alloc_raw, Prod.mk.injEq] at h
    obtain ⟨hres, har⟩ := h
    subst har
    subst hres
    exact ⟨hwf, le_refl _, hf, fun q k hq => hq, fun p hp => absurd hp (by simp)⟩
  | succ fuel ih =>
    intro ar res ar' h hwf hf
    rw [arena_alloc_raw, if_neg (show ¬(n = 0) by omega)] at h
    cases hchain : chain_alloc ar.blocks n a with
    | some pb =>
      obtain ⟨p₀, bs'⟩ := pb
      rw [hchain] at h
      simp only [Prod.mk.injEq] at h
      obtain ⟨hres, har⟩ := h
      subst har
      subst hres
      obtain ⟨L, b, b', R, hbs, hbs', hL, hsucc⟩ :=
        chain_alloc_some ar.blocks n a p₀ bs' hchain
      have hbmem : b ∈ ar.blocks := by
        rw [hbs]
        exact List.mem_append.mpr (Or.inr (List.mem_cons_self b R))
      have hwfb : WFBlock b := hwf.1 b hbmem
      obtain ⟨hdd, hcc, hoo, hoc, hpl, hpr⟩ :=
        arena_block_alloc_raw_some b n a p₀ b' hwfb ha hn hna hsucc
      have hwf' : WFChain bs' := by
        rw [hbs']
        exact wf_chain_commit L R b b' (hbs ▸ hwf) hdd hcc (by omega)
      have hmap : ∀ x ∈ bs', ∃ y ∈ ar.blocks,
          x.data = y.data ∧ x.capacity = y.capacity := by
        intro x hx
        rw [hbs'] at hx
        rcases List.mem_append.mp hx with hx | hx
        · exact ⟨x, by rw [hbs]; exact List.mem_append.mpr (Or.inl hx), rfl, rfl⟩
        · rcases List.mem_cons.mp hx with hx | hx
          · subst hx
            exact ⟨b, hbmem, hdd, hcc⟩
          · exact ⟨x, by
              rw [hbs]
              exact List.mem_append.mpr (Or.inr (List.mem_cons_of_mem b hx)),
              rfl, rfl⟩
      have hext : ∀ q k, InPrefix ar.blocks q k → InPrefix bs' q k := by
        intro q k ⟨c, hc, hq1, hq2⟩
        rw [hbs] at hc
        rcases List.mem_append.mp hc with hc | hc
        · exact ⟨c, by rw [hbs']; exact List.mem_append.mpr (Or.inl hc), hq1, hq2⟩
        · rcases List.mem_cons.mp hc with hc | hc
          · subst hc
            refine ⟨b', by
              rw [hbs']
              exact List.mem_append.mpr (Or.inr (List.mem_cons_self b' R)),
              by omega, by omega⟩
          · exact ⟨c, by
              rw [hbs']
              exact List.mem_append.mpr (Or.inr (List.mem_cons_of_mem b' hc)),
              hq1, hq2⟩
      refine ⟨hwf', le_refl _, oracleFresh_congr m ar.ctr CB ar.blocks bs' hf hmap,
        hext, ?_⟩
      intro p hp
      simp only [Option.some.injEq] at hp
      subst hp
      constructor
      · refine ⟨b', by
          rw [hbs']
          exact List.mem_append.mpr (Or.inr (List.mem_cons_self b' R)),
          by omega, by omega⟩
      · intro q k ⟨c, hc, hq1, hq2⟩
        have hwfc : WFBlock c := hwf.1 c hc
        have hPW := hwf.2
        rw [hbs] at hc hPW
        rw [List.pairwise_append] at hPW
        obtain ⟨_, hPW2, hPW3⟩ := hPW
        rw [List.pairwise_cons] at hPW2
        rcases List.mem_append.mp hc with hc | hc
        · have hdb : BlocksDisjoint c b := hPW3 c hc b (List.mem_cons_self b R)
          unfold BlocksDisjoint at hdb
          unfold RegionsDisjoint
          obtain ⟨hc1, hc2⟩ := hwfc
          omega
        · rcases List.mem_cons.mp hc with hc | hc
          · subst hc
            unfold RegionsDisjoint
            omega
          · have hdb : BlocksDisjoint b c := hPW2.1 c hc
            unfold BlocksDisjoint at hdb
            unfold RegionsDisjoint
            obtain ⟨hc1, hc2⟩ := hwfc
            omega
    | none =>
      rw [hchain] at h
      simp only at h
      cases hpush : arena_push_block m ar (growMul (align_forward_size n a)) with
      | mk flag ar₁ =>
        rw [hpush] at h
        cases flag with
        | false =>
          simp only [Prod.mk.injEq] at h
          obtain ⟨hres, har⟩ := h
          subst har
          subst hres
          obtain ⟨hb1, hb2⟩ := arena_push_block_false m ar _ ar₁ hpush
          refine ⟨hb1 ▸ hwf, hb2, ?_, ?_, fun p hp => absurd hp (by simp)⟩
          · exact oracleFresh_mono m ar.ctr ar₁.ctr CB ar₁.blocks hb2 (hb1 ▸ hf)
          · intro q k hq
            rw [hb1]
            exact hq
        | true =>
          simp only at h
          obtain ⟨r, d₀, h0, h1, har₁⟩ := arena_push_block_true m ar _ ar₁ hpush
          subst har₁
          obtain ⟨hwf₁, hf₁⟩ := oracleFresh_push m ar.ctr CB
            (growMul (align_forward_size n a)) ar.blocks d₀ r hf h0 h1 hC hwf
          obtain ⟨hwf', hctr', hf', hext', hres'⟩ :=
            ih _ res ar' h hwf₁ hf₁
          have hcons : ∀ q k, InPrefix ar.blocks q k →
              InPrefix ({ data := d₀, offset := 0, capacity := growMul (align_forward_size n a) } :: ar.blocks) q k := by
            intro q k ⟨c, hc, hq1, hq2⟩
            exact ⟨c, List.mem_cons_of_mem _ hc, hq1, hq2⟩
          refine ⟨hwf', by simp only at hctr'; omega, hf', ?_, ?_⟩
          · intro q k hq
            exact hext' q k (hcons q k hq)
          · intro p hp
            obtain ⟨hin, hdisj⟩ := hres' p hp
            exact ⟨hin, fun q k hq => hdisj q k (hcons q k hq)⟩

/-! ## Run-level disjointness -/

/-- Any range already handed out before a run of calls stays disjoint from
every range the run returns. -/
theorem arenaRun_disjoint_from (m : MemAlloc) (CB : Nat)
    (ar : ArenaAllocator) (calls : List (Nat × Nat × Option Nat))
    (ar' : ArenaAllocator) (run : ArenaRun m ar calls ar') :
    WFChain ar.blocks → OracleFresh m ar.ctr ar.blocks CB →
    (∀ c ∈ calls, CallOK CB c) →
    ∀ q k, InPrefix ar.blocks q k →
      ∀ c ∈ calls, ∀ p, c.2.2 = some p → RegionsDisjoint q k p c.1 := by
  induction run with
  | nil ar₀ =>
    intro _ _ _ q k _ c hc
    exact absurd hc (List.not_mem_nil c)
  | step fuel ar₀ n a res ar₁ calls₀ ar₂ hstep run₀ ih =>
    intro hwf hf hcalls q k hq c hc p hp
    obtain ⟨h1, h2, h3, h4⟩ := hcalls _ (List.mem_cons_self _ _)
    obtain ⟨hwf', _, hf', hext', hres'⟩ :=
      arena_alloc_raw_spec m CB n a h1 h2 h3 h4 fuel ar₀ res ar₁ hstep hwf hf
    rcases List.mem_cons.mp hc with hc | hc
    · subst hc
      obtain ⟨_, hdisj⟩ := hres' p hp
      exact hdisj q k hq
    · exact ih hwf' hf' (fun d hd => hcalls d (List.mem_cons_of_mem _ hd))
        q k (hext' q k hq) c hc p hp

/-! ## Alignment of returned pointers -/

/-- Reducing modulo a multiple of `k` does not change a value in `ZMod k`. -/
theorem natCast_mod_dvd_zmod (k mm : Nat) (hdvd : k ∣ mm) (x : Nat) :
    ((x % mm : Nat) : ZMod k) = (x : ZMod k) := by
  conv_rhs => rw [← Nat.div_add_mod x mm]
  push_cast
  rw [(ZMod.natCast_zmod_eq_zero_iff_dvd mm k).mpr hdvd]
  ring

/-- The alignment padding computation lands on a multiple of the alignment,
through the wraparound. -/
theorem align_up_cast_zero (a c : Nat) (ha : 0 < a) (hdvd : a ∣ U64)
    (hc : c % a > 0) : (((c + (a - c % a)) % U64 : Nat) : ZMod a) = 0 := by
  rw [natCast_mod_dvd_zmod a U64 hdvd, Nat.cast_add,
    Nat.cast_sub (le_of_lt (Nat.mod_lt c ha)), ZMod.natCast_self,
    ZMod.natCast_mod]
  ring

/-- The full pointer expression of `arena_block_alloc_raw` is a multiple of
the alignment once the aligned cursor `A` is, whatever the wraparounds. -/
theorem ptr_expr_aligned (a dd oo n A : Nat) (hdvd : a ∣ U64) (hn : n < U64)
    (hA : (A : ZMod a) = 0) :
    (dd + ((oo + ((A + U64 - (dd + oo) % U64) % U64 + n) % U64) % U64 + U64 - n) % U64) % U64 % a = 0 := by
  have hU64pos : 0 < U64 := by norm_num [U64]
  have hM := natCast_mod_dvd_zmod a U64 hdvd
  have hU : (U64 : ZMod a) = 0 := (ZMod.natCast_zmod_eq_zero_iff_dvd U64 a).mpr hdvd
  have hcurU : (dd + oo) % U64 < U64 := Nat.mod_lt _ hU64pos
  apply Nat.mod_eq_zero_of_dvd
  rw [← ZMod.natCast_zmod_eq_zero_iff_dvd]
  set cur := (dd + oo) % U64 with hcurDef
  set P := (A + U64 - cur) % U64 with hPDef
  set R := (P + n) % U64 with hRDef
  set O := (oo + R) % U64 with hODef
  set w := (O + U64 - n) % U64 with hwDef
  have hcur : (cur : ZMod a) = (dd : ZMod a) + (oo : ZMod a) := by
    rw [hcurDef, hM, Nat.cast_add]
  have hP : (P : ZMod a) = 0 - (cur : ZMod a) := by
    rw [hPDef, hM, Nat.cast_sub (by omega), Nat.cast_add, hA, hU]
    ring
  have hR : (R : ZMod a) = 0 - (cur : ZMod a) + (n : ZMod a) := by
    rw [hRDef, hM, Nat.cast_add, hP]
  have hO : (O : ZMod a) = (oo : ZMod a) + (0 - (cur : ZMod a) + (n : ZMod a)) := by
    rw [hODef, hM, Nat.cast_add, hR]
  have hw : (w : ZMod a) = (oo : ZMod a) - (cur : ZMod a) := by
    rw [hwDef, hM, Nat.cast_sub (by omega), Nat.cast_add, hO, hU]
    ring
  rw [hM, Nat.cast_add, hw, hcur]
  ring

/-- The pointer returned by a successful `arena_block_alloc_raw` is a
multiple of the alignment whenever the alignment divides `2 ^ 64` — even in
the presence of wraparound, because every mod-`2 ^ 64` reduction preserves
the congruence modulo the alignment. -/
theorem arena_block_alloc_raw_aligned (blk : ArenaBlock) (n a p : Nat)
    (blk' : ArenaBlock) (hdvd : a ∣ U64) (ha : 0 < a) (hn : n < U64)
    (h : arena_block_alloc_raw blk n a = some (p, blk')) : p % a = 0 := by
  simp only [arena_block_alloc_raw, arena_block_get_required,
    align_forward_ptr] at h
  by_cases hc : (blk.data + blk.offset) % U64 % a > 0
  · rw [if_pos hc] at h
    split at h
    · exact absurd h (by simp)
    · simp only [Option.some.injEq, Prod.mk.injEq] at h
      obtain ⟨hp, -⟩ := h
      subst hp
      exact ptr_expr_aligned a blk.data blk.offset n _ hdvd hn
        (align_up_cast_zero a _ ha hdvd hc)
  · rw [if_neg hc] at h
    split at h
    · exact absurd h (by simp)
    · simp only [Option.some.injEq, Prod.mk.injEq] at h
      obtain ⟨hp, -⟩ := h
      subst hp
      refine ptr_expr_aligned a blk.data blk.offset n _ hdvd hn ?_
      exact (ZMod.natCast_zmod_eq_zero_iff_dvd _ a).mpr
        ((Nat.dvd_iff_mod_eq_zero).mpr (by omega))

/-- C1: for every arena and every `arena_alloc_raw(ar, nbytes, alignment)`
call with `nbytes > 0` (and `nbytes` in `size_t` range) and `alignment` a
power of two dividing `2 ^ 64` that returns a non-null pointer, the
returned address is a multiple of the alignment:
`address mod alignment == 0`. -/
theorem arena_alloc_raw_alignment (m : MemAlloc) (fuel : Nat)
    (ar ar' : ArenaAllocator) (nbytes alignment k p : Nat)
    (halign : alignment = 2 ^ k) (hk : k ≤ 64)
    (hpos : 0 < nbytes) (hsize : nbytes < U64)
    (h : arena_alloc_raw m fuel ar nbytes alignment = (some p, ar')) :
    p % alignment = 0 := by
  have hdvd : alignment ∣ U64 := by
    rw [halign]
    unfold U64
    exact pow_dvd_pow 2 hk
  have hapos : 0 < alignment := by
    rw [halign]
    positivity
  revert h
  induction fuel generalizing ar ar' with
  | zero =>
    intro h
    simp [arena_alloc_raw] at h
  | succ fuel ih =>
    intro h
    rw [arena_alloc_raw, if_neg (by omega)] at h
    cases hchain : chain_alloc ar.blocks nbytes alignment with
    | some pb =>
      obtain ⟨p₀, bs'⟩ := pb
      rw [hchain] at h
      simp only [Prod.mk.injEq, Option.some.injEq] at h
      obtain ⟨hp, -⟩ := h
      subst hp
      obtain ⟨L, b, b', R, -, -, -, hsucc⟩ :=
        chain_alloc_some ar.blocks nbytes alignment p₀ bs' hchain
      exact arena_block_alloc_raw_aligned b nbytes alignment p₀ b' hdvd hapos
        hsize hsucc
    | none =>
      rw [hchain] at h
      simp only at h
      cases hpush : arena_push_block m ar
          (growMul (align_forward_size nbytes alignment)) with
      | mk flag ar₁ =>
        rw [hpush] at h
        cases flag with
        | true =>
          simp only at h
          exact ih ar₁ ar' h
        | false =>
          simp only [Prod.mk.injEq] at h
          exact absurd h.1 (by simp)

/-- Witness for C1 at a concrete input: allocating 4 bytes aligned to
`4 = 2 ^ 2` from a block at address 4 returns address 4, a multiple of 4. -/
theorem arena_alloc_raw_alignment_witness : 4 % 4 = 0 :=
  arena_alloc_raw_alignment ⟨fun _ => none⟩ 1
    ⟨[⟨4, 0, 100⟩], 0⟩ ⟨[⟨4, 4, 100⟩], 0⟩ 4 4 2 4
    (by norm_num) (by norm_num) (by norm_num) (by norm_num [U64])
    (by decide)

/-- C2 (amended): over any sequence of `arena_alloc_raw` calls on one
well-formed arena — growth included — in which every call has positive size
and alignment with `nbytes + alignment ≤ 2 ^ 64` (so the padded-size
arithmetic cannot overflow) and the backing allocator returns only fresh,
pairwise-disjoint buffers, the returned regions `[p, p + nbytes)` are
pairwise disjoint. -/
theorem arena_alloc_raw_live_regions_disjoint (m : MemAlloc) (CB : Nat)
    (ar : ArenaAllocator) (calls : List (Nat × Nat × Option Nat))
    (ar' : ArenaAllocator) (run : ArenaRun m ar calls ar')
    (hwf : WFChain ar.blocks) (hf : OracleFresh m ar.ctr ar.blocks CB)
    (hcalls : ∀ c ∈ calls, CallOK CB c) :
    List.Pairwise (fun c d => ∀ p q, c.2.2 = some p → d.2.2 = some q →
      RegionsDisjoint p c.1 q d.1) calls := by
  revert hwf hf hcalls
  induction run with
  | nil ar₀ =>
    intro _ _ _
    exact List.Pairwise.nil
  | step fuel ar₀ n a res ar₁ calls₀ ar₂ hstep run₀ ih =>
    intro hwf hf hcalls
    obtain ⟨h1, h2, h3, h4⟩ := hcalls _ (List.mem_cons_self _ _)
    obtain ⟨hwf', -, hf', -, hres'⟩ :=
      arena_alloc_raw_spec m CB n a h1 h2 h3 h4 fuel ar₀ res ar₁ hstep hwf hf
    have htail := fun d hd => hcalls d (List.mem_cons_of_mem _ hd)
    refine List.Pairwise.cons ?_ (ih hwf' hf' htail)
    intro d hd p q hp hq
    obtain ⟨hin, -⟩ := hres' p hp
    exact arenaRun_disjoint_from m CB ar₁ calls₀ ar₂ run₀ hwf' hf' htail
      p n hin d hd q hq

/-- Witness for C2 (amended): two 4-byte allocations from one 100-byte
block yield the disjoint regions `[0, 4)` and `[4, 8)`. -/
theorem arena_alloc_raw_live_regions_disjoint_witness :
    List.Pairwise (fun c d => ∀ p q, c.2.2 = some p → d.2.2 = some q →
      RegionsDisjoint p c.1 q d.1)
      [(4, 4, some 0), (4, 4, some 4)] := by
  refine arena_alloc_raw_live_regions_disjoint ⟨fun _ => none⟩ 4
    ⟨[⟨0, 0, 100⟩], 0⟩ [(4, 4, some 0), (4, 4, some 4)] ⟨[⟨0, 8, 100⟩], 0⟩
    ?_ (by decide) ?_ ?_
  · exact ArenaRun.step 1 _ 4 4 (some 0) ⟨[⟨0, 4, 100⟩], 0⟩ _ _ (by decide)
      (ArenaRun.step 1 _ 4 4 (some 4) ⟨[⟨0, 8, 100⟩], 0⟩ _ _ (by decide)
        (ArenaRun.nil _))
  · intro i b _ hb
    exact Option.noConfusion hb
  · intro c hc
    simp only [List.mem_cons, List.not_mem_nil, or_false] at hc
    rcases hc with rfl | rfl
    · decide
    · decide

/-- Counterexample to C2 as stated: with an unguarded overflow
(`nbytes = 2 ^ 64 - 1`), a sequence of three successful `arena_alloc_raw`
calls on one arena returns the regions `[12, 16)`, `[32, 32 + 2 ^ 64 - 1)`
and `[31, 51)` — the last two overlap, because the wrapped required-byte
count advanced the offset by only 15 bytes. -/
theorem live_regions_overlap_counterexample :
    ArenaRun ⟨fun _ => none⟩ ⟨[⟨9, 0, 100⟩], 0⟩
      [(4, 4, some 12), (U64 - 1, 32, some 32), (20, 1, some 31)]
      ⟨[⟨9, 42, 100⟩], 0⟩ ∧
    ¬ List.Pairwise (fun c d => ∀ p q, c.2.2 = some p → d.2.2 = some q →
        RegionsDisjoint p c.1 q d.1)
      [(4, 4, some 12), (U64 - 1, 32, some 32), (20, 1, some 31)] := by
  constructor
  · exact ArenaRun.step 1 _ 4 4 (some 12) ⟨[⟨9, 7, 100⟩], 0⟩ _ _ (by decide)
      (ArenaRun.step 1 _ (U64 - 1) 32 (some 32) ⟨[⟨9, 22, 100⟩], 0⟩ _ _
        (by decide)
        (ArenaRun.step 1 _ 20 1 (some 31) ⟨[⟨9, 42, 100⟩], 0⟩ _ _ (by decide)
          (ArenaRun.nil _)))
  · intro hpw
    have h23 := (List.pairwise_cons.mp (List.pairwise_cons.mp hpw).2).1
      (20, 1, some 31) (List.mem_cons_self _ _)
    have hr : RegionsDisjoint 32 (U64 - 1) 31 20 := h23 32 31 rfl rfl
    revert hr
    decide

/-- Counterexample to C3 as stated: requesting 16 bytes aligned to 16 from
a full 16-byte block grows by one block of capacity
`growMul (align_up 16 16) = 18`, but when the backing allocator returns the
unaligned base 33 the retried search fails against that fresh block (15
bytes of padding plus 16 bytes exceed 18), and the call performs a second
growth attempt before succeeding at base 64 — ending with three blocks. -/
theorem growth_retry_not_guaranteed_counterexample :
    chain_alloc [⟨0, 16, 16⟩] 16 16 = none ∧
    arena_push_block
      ⟨fun i => if i = 0 then some 1000 else if i = 1 then some 33 else
        if i = 2 then some 2000 else if i = 3 then some 64 else none⟩
      ⟨[⟨0, 16, 16⟩], 0⟩ (growMul (align_forward_size 16 16)) =
      (true, ⟨[⟨33, 0, 18⟩, ⟨0, 16, 16⟩], 2⟩) ∧
    chain_alloc [⟨33, 0, 18⟩, ⟨0, 16, 16⟩] 16 16 = none ∧
    arena_alloc_raw
      ⟨fun i => if i = 0 then some 1000 else if i = 1 then some 33 else
        if i = 2 then some 2000 else if i = 3 then some 64 else none⟩
      3 ⟨[⟨0, 16, 16⟩], 0⟩ 16 16 =
      (some 64, ⟨[⟨64, 16, 18⟩, ⟨33, 0, 18⟩, ⟨0, 16, 16⟩], 4⟩) ∧
    arena_block_count [⟨64, 16, 18⟩, ⟨33, 0, 18⟩, ⟨0, 16, 16⟩] = 3 := by
  refine ⟨by decide, by decide, by decide, by decide, by decide⟩

/-- C3 (amended): when no existing block fits, `arena_alloc_raw` reserves
exactly one new block of capacity
`(size_t)(align_up(nbytes, alignment) * ARENA_GROW_FACTOR)`, links it as
the new head, and the retried search succeeds against that fresh block — a
single growth attempt — provided the backing allocator hands back a base
address that is a multiple of the requested alignment; with an unaligned
base the retry can miss and the call grows again. -/
theorem arena_alloc_raw_grow_aligned_base (m : MemAlloc) (fuel : Nat)
    (ar : ArenaAllocator) (n a r d : Nat)
    (hn : 1 ≤ n) (ha : 1 ≤ a) (hna : n + a < U64)
    (hchain : chain_alloc ar.blocks n a = none)
    (h0 : m.f ar.ctr = some r) (h1 : m.f (ar.ctr + 1) = some d)
    (hd : d % a = 0)
    (hdU : d + growMul (align_forward_size n a) < U64) :
    arena_alloc_raw m (fuel + 2) ar n a =
      (some d, ⟨⟨d, n, growMul (align_forward_size n a)⟩ :: ar.blocks,
        ar.ctr + 2⟩) := by
  have hAn : n ≤ align_forward_size n a := by
    unfold align_forward_size
    split
    · have hma : n % a ≤ a := le_of_lt (Nat.mod_lt n (by omega))
      rw [Nat.mod_eq_of_lt (by omega)]
      omega
    · omega
  have hAC : align_forward_size n a ≤ growMul (align_forward_size n a) := by
    unfold growMul
    calc align_forward_size n a
        = align_forward_size n a * 2 ^ 52 / 2 ^ 52 :=
          (Nat.mul_div_cancel _ (by norm_num)).symm
      _ ≤ align_forward_size n a * growFactorNum / 2 ^ 52 :=
          Nat.div_le_div_right
            (Nat.mul_le_mul_left _ (by norm_num [growFactorNum]))
  have hpush : arena_push_block m ar (growMul (align_forward_size n a)) =
      (true, ⟨⟨d, 0, growMul (align_forward_size n a)⟩ :: ar.blocks,
        ar.ctr + 2⟩) := by
    unfold arena_push_block arena_block_create
    rw [h0, h1]
  have hfresh : arena_block_alloc_raw
      ⟨d, 0, growMul (align_forward_size n a)⟩ n a =
      some (d, ⟨d, n, growMul (align_forward_size n a)⟩) := by
    rw [arena_block_alloc_raw_eq _ n a
      ⟨Nat.zero_le _, by simp only; omega⟩ ha hn (by omega)]
    simp only
    have hpad : padOf (d + 0) a = 0 := by
      unfold padOf
      rw [Nat.add_zero, hd]
      simp
    rw [hpad, if_pos (by omega)]
    simp only [Option.some.injEq, Prod.mk.injEq, ArenaBlock.mk.injEq,
      true_and, and_true]
    omega
  have hchain2 : chain_alloc
      (⟨d, 0, growMul (align_forward_size n a)⟩ :: ar.blocks) n a =
      some (d, ⟨d, n, growMul (align_forward_size n a)⟩ :: ar.blocks) := by
    rw [chain_alloc, hfresh]
  rw [arena_alloc_raw, if_neg (by omega), hchain]
  simp only
  rw [hpush]
  simp only
  rw [arena_alloc_raw, if_neg (by omega)]
  simp only
  rw [hchain2]

/-- Witness for C3 (amended): a full 16-byte block, 16-byte request aligned
to 16, fresh base 32 (a multiple of 16): one growth of capacity 18, retry
succeeds at address 32. -/
theorem arena_alloc_raw_grow_aligned_base_witness :
    arena_alloc_raw
      ⟨fun i => if i = 0 then some 500 else if i = 1 then some 32 else none⟩
      2 ⟨[⟨0, 16, 16⟩], 0⟩ 16 16 =
      (some 32, ⟨[⟨32, 16, 18⟩, ⟨0, 16, 16⟩], 2⟩) :=
  arena_alloc_raw_grow_aligned_base _ 0 ⟨[⟨0, 16, 16⟩], 0⟩ 16 16 500 32
    (by norm_num) (by norm_num) (by norm_num [U64]) (by decide) (by decide)
    (by decide) (by decide) (by decide)

/-- C4 evaluated at the failing input: with `nbytes = 2 ^ 64 - 1` and
alignment 2 on a block at the odd address 9, the padded byte count
`padding + nbytes` wraps to 0 modulo `2 ^ 64`, the fit check passes, and
the allocation "succeeds": it returns the non-null address 10 and leaves
the offset at 0 — the call does not fail, and the bookkeeping no longer
reflects the returned region. -/
theorem arena_alloc_raw_overflow_wraps :
    arena_block_get_required 9 (U64 - 1) 2 = 0 ∧
    arena_block_alloc_raw ⟨9, 0, 100⟩ (U64 - 1) 2 = some (10, ⟨9, 0, 100⟩) ∧
    arena_alloc_raw ⟨fun _ => none⟩ 1 ⟨[⟨9, 0, 100⟩], 0⟩ (U64 - 1) 2 =
      (some 10, ⟨[⟨9, 0, 100⟩], 0⟩) := by
  refine ⟨by decide, by decide, by decide⟩

/-- C5: `arena_alloc_raw` performs a first-fit search over all existing
blocks starting at the head: whenever the chain splits as `L ++ b :: R`
with every block of `L` rejecting the request and `b` accepting it, the
call commits to `b` — advancing only that block's offset, touching no other
block and reserving no new block.  In particular (`L ≠ []`) a request that
does not fit the newest block can still be satisfied by an older block. -/
theorem arena_alloc_raw_first_fit (m : MemAlloc) (fuel : Nat)
    (ar : ArenaAllocator) (n a p : Nat) (L R : List ArenaBlock)
    (b b' : ArenaBlock) (hn : n ≠ 0)
    (hbs : ar.blocks = L ++ b :: R)
    (hL : ∀ x ∈ L, arena_block_alloc_raw x n a = none)
    (hb : arena_block_alloc_raw b n a = some (p, b')) :
    arena_alloc_raw m (fuel + 1) ar n a =
      (some p, ⟨L ++ b' :: R, ar.ctr⟩) := by
  rw [arena_alloc_raw, if_neg hn, hbs,
    chain_alloc_first_fit L b b' R n a p hL hb]

/-- Witness for C5 at a concrete input: the head block is full, the older
block has room, and the allocation lands in the older block while the
chain shape, the head block and the oracle position stay untouched. -/
theorem arena_alloc_raw_first_fit_witness :
    arena_alloc_raw ⟨fun _ => none⟩ 1
      ⟨[⟨0, 10, 10⟩, ⟨1000, 0, 100⟩], 7⟩ 8 4 =
      (some 1000, ⟨[⟨0, 10, 10⟩, ⟨1000, 8, 100⟩], 7⟩) :=
  arena_alloc_raw_first_fit ⟨fun _ => none⟩ 0
    ⟨[⟨0, 10, 10⟩, ⟨1000, 0, 100⟩], 7⟩ 8 4 1000
    [⟨0, 10, 10⟩] [] ⟨1000, 0, 100⟩ ⟨1000, 8, 100⟩
    (by norm_num) rfl (by decide) (by decide)

/-- Counterexample to C6 as stated: a growth attempt whose first
reservation succeeds (block at unaligned base 33) but whose retry misses
and whose second reservation fails returns null with the arena changed:
the extra block stays linked, `block_count` went from 1 to 2 and
`total_capacity` from 16 to 34. -/
theorem failed_growth_partial_state_counterexample :
    arena_alloc_raw
      ⟨fun i => if i = 0 then some 1000 else if i = 1 then some 33 else none⟩
      4 ⟨[⟨0, 16, 16⟩], 0⟩ 16 16 =
      (none, ⟨[⟨33, 0, 18⟩, ⟨0, 16, 16⟩], 3⟩) ∧
    arena_block_count [⟨33, 0, 18⟩, ⟨0, 16, 16⟩] = 2 ∧
    arena_block_count [⟨0, 16, 16⟩] = 1 ∧
    arena_total_capacity [⟨33, 0, 18⟩, ⟨0, 16, 16⟩] = 34 ∧
    arena_total_capacity [⟨0, 16, 16⟩] = 16 := by
  refine ⟨by decide, by decide, by decide, by decide, by decide⟩

/-- C6 (amended): when the failing reservation is the first reservation
attempted by the call — no block was linked earlier in the same call —
`arena_alloc_raw` returns null and the arena is left unchanged: the same
chain (hence same head, same offsets, same block count and total capacity);
only the backing-allocator call counter advanced. -/
theorem arena_alloc_raw_reservation_failure_unchanged (m : MemAlloc)
    (fuel : Nat) (ar ar₁ : ArenaAllocator) (n a : Nat) (hn : n ≠ 0)
    (hchain : chain_alloc ar.blocks n a = none)
    (hpush : arena_push_block m ar (growMul (align_forward_size n a)) =
      (false, ar₁)) :
    arena_alloc_raw m (fuel + 1) ar n a = (none, ar₁) ∧
      ar₁.blocks = ar.blocks ∧
      arena_block_count ar₁.blocks = arena_block_count ar.blocks ∧
      arena_total_capacity ar₁.blocks = arena_total_capacity ar.blocks := by
  obtain ⟨hb, -⟩ := arena_push_block_false m ar _ ar₁ hpush
  refine ⟨?_, hb, by rw [hb], by rw [hb]⟩
  rw [arena_alloc_raw, if_neg hn, hchain]
  simp only
  rw [hpush]

/-- Witness for C6 (amended): a full block, a 16-byte request, and a
backing allocator that always fails: the call returns null and the chain
is exactly as before. -/
theorem arena_alloc_raw_reservation_failure_unchanged_witness :
    arena_alloc_raw ⟨fun _ => none⟩ 1 ⟨[⟨0, 16, 16⟩], 0⟩ 16 16 =
      (none, ⟨[⟨0, 16, 16⟩], 1⟩) ∧
      (⟨[⟨0, 16, 16⟩], 1⟩ : ArenaAllocator).blocks =
        (⟨[⟨0, 16, 16⟩], 0⟩ : ArenaAllocator).blocks ∧
      arena_block_count (⟨[⟨0, 16, 16⟩], 1⟩ : ArenaAllocator).blocks =
        arena_block_count (⟨[⟨0, 16, 16⟩], 0⟩ : ArenaAllocator).blocks ∧
      arena_total_capacity (⟨[⟨0, 16, 16⟩], 1⟩ : ArenaAllocator).blocks =
        arena_total_capacity (⟨[⟨0, 16, 16⟩], 0⟩ : ArenaAllocator).blocks :=
  arena_alloc_raw_reservation_failure_unchanged ⟨fun _ => none⟩ 0
    ⟨[⟨0, 16, 16⟩], 0⟩ ⟨[⟨0, 16, 16⟩], 1⟩ 16 16
    (by norm_num) (by decide) (by decide)

/-! ## Reset, zero-size allocation, creation, null head -/

/-- `arena_reset` on a non-null chain maps every block to the same block
with offset zero. -/
theorem arena_reset_eq_map (bs : List ArenaBlock) (hbs : bs ≠ []) :
    arena_reset bs = some (bs.map fun b => { b with offset := 0 }) := by
  induction bs with
  | nil => exact absurd rfl hbs
  | cons b rest ih =>
    cases rest with
    | nil => rfl
    | cons c rest' =>
      simp only [arena_reset]
      rw [ih (List.cons_ne_nil c rest')]
      rfl

/-- `arena_block_count` only depends on the chain length, so zeroing
offsets keeps it. -/
theorem arena_block_count_map_offset (bs : List ArenaBlock) :
    arena_block_count (bs.map fun b => { b with offset := 0 }) =
      arena_block_count bs := by
  induction bs with
  | nil => rfl
  | cons b rest ih => rw [List.map_cons, arena_block_count, ih, arena_block_count]

/-- `arena_total_capacity` only depends on the capacities, so zeroing
offsets keeps it. -/
theorem arena_total_capacity_map_offset (bs : List ArenaBlock) :
    arena_total_capacity (bs.map fun b => { b with offset := 0 }) =
      arena_total_capacity bs := by
  induction bs with
  | nil => rfl
  | cons b rest ih => rw [List.map_cons, arena_total_capacity, ih, arena_total_capacity]

/-- C7: for every arena with at least one block, `arena_reset` sets every
block's offset to zero and changes nothing else: the chain keeps its length
and order and every block keeps its `data` pointer and `capacity` (the
`map` equation), and `block_count` and `total_capacity` are unchanged. -/
theorem arena_reset_zeroes_offsets_only (bs : List ArenaBlock)
    (hbs : bs ≠ []) :
    arena_reset bs = some (bs.map fun b => { b with offset := 0 }) ∧
      arena_block_count (bs.map fun b => { b with offset := 0 }) =
        arena_block_count bs ∧
      arena_total_capacity (bs.map fun b => { b with offset := 0 }) =
        arena_total_capacity bs :=
  ⟨arena_reset_eq_map bs hbs, arena_block_count_map_offset bs,
    arena_total_capacity_map_offset bs⟩

/-- Witness for C7: resetting the one-block chain `[⟨5, 3, 10⟩]` yields
`[⟨5, 0, 10⟩]` with count and capacity unchanged. -/
theorem arena_reset_zeroes_offsets_only_witness :
    arena_reset [⟨5, 3, 10⟩] =
      some ([(⟨5, 3, 10⟩ : ArenaBlock)].map fun b => { b with offset := 0 }) ∧
      arena_block_count
          ([(⟨5, 3, 10⟩ : ArenaBlock)].map fun b => { b with offset := 0 }) =
        arena_block_count [⟨5, 3, 10⟩] ∧
      arena_total_capacity
          ([(⟨5, 3, 10⟩ : ArenaBlock)].map fun b => { b with offset := 0 }) =
        arena_total_capacity [⟨5, 3, 10⟩] :=
  arena_reset_zeroes_offsets_only [⟨5, 3, 10⟩] (by simp)

/-- C8: `arena_alloc_raw` with `nbytes = 0` returns the defined null result
immediately as a successful no-op: no crash, and the arena — chain, every
offset, and the oracle position — is returned unchanged, at every fuel. -/
theorem arena_alloc_raw_zero_nbytes_noop (m : MemAlloc) (fuel : Nat)
    (ar : ArenaAllocator) (alignment : Nat) :
    arena_alloc_raw m fuel ar 0 alignment = (none, ar) := by
  cases fuel with
  | zero => rfl
  | succ fuel => rw [arena_alloc_raw, if_pos rfl]

/-- Counterexample to C9 as stated: `arena_create` applies no configured
minimum capacity — with requested capacity 0 and successful reservations it
returns a single block of capacity 0, so the arena's total capacity is 0
rather than any positive configured minimum. -/
theorem arena_create_zero_capacity_counterexample :
    arena_create
      ⟨fun i => if i = 0 then some 50 else if i = 1 then some 100 else none⟩
      0 = ⟨[⟨100, 0, 0⟩], 2⟩ ∧
    arena_total_capacity [⟨100, 0, 0⟩] = 0 ∧
    arena_block_count [⟨100, 0, 0⟩] = 1 := by
  refine ⟨by decide, by decide, by decide⟩

/-- C9 (amended): `arena_create` reserves exactly one block of exactly the
requested capacity — including a zero-capacity block when the request is
zero; no minimum is applied — and if either reservation fails it returns
the defined empty state: a null head (`blocks = []`) on which
`arena_block_count` and `arena_total_capacity` yield zero. -/
theorem arena_create_spec (m : MemAlloc) (capacity : Nat)
    (hcap : capacity < U64) :
    (∀ r d, m.f 0 = some r → m.f 1 = some d →
      arena_create m capacity = ⟨[⟨d, 0, capacity⟩], 2⟩ ∧
        arena_block_count [(⟨d, 0, capacity⟩ : ArenaBlock)] = 1 ∧
        arena_total_capacity [(⟨d, 0, capacity⟩ : ArenaBlock)] = capacity) ∧
    ((m.f 0 = none ∨ m.f 1 = none) →
      (arena_create m capacity).blocks = [] ∧
        arena_block_count (arena_create m capacity).blocks = 0 ∧
        arena_total_capacity (arena_create m capacity).blocks = 0) := by
  constructor
  · intro r d h0 h1
    refine ⟨?_, ?_, ?_⟩
    · unfold arena_create arena_block_create
      simp only [Nat.zero_add]
      rw [h0, h1]
    · rw [arena_block_count, arena_block_count]
      rw [Nat.mod_eq_of_lt (by norm_num [U64])]
    · rw [arena_total_capacity, arena_total_capacity]
      simp only [Nat.zero_add]
      exact Nat.mod_eq_of_lt hcap
  · intro hfail
    cases h0 : m.f 0 with
    | none =>
      unfold arena_create arena_block_create
      simp only [Nat.zero_add]
      rw [h0]
      exact ⟨rfl, rfl, rfl⟩
    | some r =>
      have h1 : m.f 1 = none := by
        rcases hfail with h | h
        · rw [h0] at h
          exact absurd h (by simp)
        · exact h
      unfold arena_create arena_block_create
      simp only [Nat.zero_add]
      rw [h0, h1]
      exact ⟨rfl, rfl, rfl⟩

/-- Witness for C9 (amended), success side: requesting 7 bytes with record
address 50 and buffer address 100 gives the one-block arena
`⟨[⟨100, 0, 7⟩], 2⟩` with count 1 and capacity 7. -/
theorem arena_create_spec_witness :
    arena_create
      ⟨fun i => if i = 0 then some 50 else if i = 1 then some 100 else none⟩
      7 = ⟨[⟨100, 0, 7⟩], 2⟩ ∧
      arena_block_count [(⟨100, 0, 7⟩ : ArenaBlock)] = 1 ∧
      arena_total_capacity [(⟨100, 0, 7⟩ : ArenaBlock)] = 7 :=
  (arena_create_spec
    ⟨fun i => if i = 0 then some 50 else if i = 1 then some 100 else none⟩
    7 (by norm_num [U64])).1 50 100 (by decide) (by decide)

/-- C10: `arena_reset` and `arena_destroy` dereference the head block
unconditionally — on the empty arena (`head = NULL`, modelled `[]`) their
first loop condition hits the undefined null dereference (modelled `none`),
while they are defined (`some`) on every non-null head; by contrast
`arena_block_count` and `arena_total_capacity` handle the null head and
return 0. -/
theorem arena_reset_destroy_null_head :
    arena_reset [] = none ∧ arena_destroy [] = none ∧
      arena_block_count [] = 0 ∧ arena_total_capacity [] = 0 ∧
      ∀ bs : List ArenaBlock, bs ≠ [] →
        (arena_reset bs).isSome ∧ (arena_destroy bs).isSome := by
  refine ⟨rfl, rfl, rfl, rfl, ?_⟩
  intro bs hbs
  cases bs with
  | nil => exact absurd rfl hbs
  | cons b rest =>
    constructor
    · rw [arena_reset_eq_map (b :: rest) (List.cons_ne_nil b rest)]
      rfl
    · rfl

/-- Witness for C10 at a concrete non-null chain. -/
theorem arena_reset_destroy_null_head_witness :
    (arena_reset [⟨1, 2, 3⟩]).isSome ∧ (arena_destroy [⟨1, 2, 3⟩]).isSome :=
  arena_reset_destroy_null_head.2.2.2.2 [⟨1, 2, 3⟩] (by simp)
